import Mathlib

/-!
# Verification of `workgroup` (sadlil/workgroup)

A shallow embedding of the Go package `workgroup` (file `workgroup.go`,
mirrored in `src/unnamed/part_002`): a fork of `errgroup.Group` with two
failure modes (`Collect`, `FailFast`), an optional concurrency limit
implemented as a buffered channel used as a semaphore, and a derived
cancellable context.

The embedding models:
* Go error values as an inductive type `GoErr`; `errors.Join` at the arity
  the package uses (always exactly two arguments, `errors.Join(g.err, err)`)
  as `joinE`; `errors.Is` as `goIs`.
* The mutable fields of `Group` (`cancel`, `wg`, `err`, `errOnce`, `sem`)
  as a record `GroupSt` of: the cancellation flag of the derived context,
  the `sync.WaitGroup` counter, the aggregated-error slot, the
  `sync.Once` latch, and the number of tokens in the semaphore channel.
* Each syntactically atomic effect of the methods `Go` (split into `add`,
  the goroutine body `finishTask`, with the error-handling section
  `recordErr`), `Wait`, `Cancel`, `Len` as a state transformer; blocking
  points (`g.sem <- struct{}{}`, `g.wg.Wait()`) as enabledness conditions.
  Interleaved executions are event traces (`Event`, `step`, `run`,
  `Reachable`).
-/

namespace Workgroup

/-- A Go error value, restricted to the shapes this program manipulates:
an opaque task-supplied error (identified by a tag, modelling Go's
pointer-identity `==` on errors), and the `joinError` values produced by
`errors.Join` as called by this package — `errors.Join(a, b)` wraps the
non-nil arguments, so a join holds one or two children
(`Unwrap() []error` returns them). -/
inductive GoErr where
  | base : Nat → GoErr
  | join1 : GoErr → GoErr
  | join2 : GoErr → GoErr → GoErr
deriving DecidableEq, Repr

/-- `errors.Is(err, target)`: `err == target`, or recursively `Is` on any
child returned by `Unwrap() []error` (a `base` error unwraps to nothing). -/
def goIs : GoErr → GoErr → Bool
  | GoErr.base n, t => decide (GoErr.base n = t)
  | GoErr.join1 a, t => decide (GoErr.join1 a = t) || goIs a t
  | GoErr.join2 a b, t => decide (GoErr.join2 a b = t) || goIs a t || goIs b t

/-- `errors.Is` where the first argument is a possibly-nil Go error:
`Is(nil, target)` is false. -/
def optIs : Option GoErr → GoErr → Bool
  | none, _ => false
  | some e, t => goIs e t

/-- `errors.Join(a, b)` for two possibly-nil arguments, exactly as the
package calls it: nil when both are nil, otherwise a fresh `joinError`
wrapping the non-nil arguments in order. -/
def joinE : Option GoErr → Option GoErr → Option GoErr
  | none, none => none
  | some a, none => some (GoErr.join1 a)
  | none, some b => some (GoErr.join1 b)
  | some a, some b => some (GoErr.join2 a b)

/-- `FailureMode` from the source: `Collect = iota` (0), `FailFast` (1). -/
inductive FailureMode where
  | Collect : FailureMode
  | FailFast : FailureMode
deriving DecidableEq, Repr

/-- The configuration a `Group` is created with and never mutates after
`New` returns: the failure mode; `sem = some n` iff `WithLimit n` was
applied (then `g.sem = make(chan struct{}, n)`), `none` iff `g.sem` is the
nil channel; `hasCancel` iff `g.cancel` is non-nil (true for every group
built by `New`, false only for a zero-value `Group`). -/
structure Config where
  failureMode : FailureMode
  sem : Option Nat
  hasCancel : Bool
deriving DecidableEq, Repr

/-- The mutable state of a `Group` together with its derived context:
`cancelled` — whether the derived context's cancel function has fired;
`wgCount` — the `sync.WaitGroup` counter (tasks added, not yet done);
`err` — the aggregated-error slot `g.err`; `errOnce` — whether
`g.errOnce.Do` has already run its function; `semCount` — the number of
`struct{}{}` tokens currently buffered in `g.sem` (tasks holding
admission capacity). -/
structure GroupSt where
  cancelled : Bool
  wgCount : Nat
  err : Option GoErr
  errOnce : Bool
  semCount : Nat
deriving DecidableEq, Repr

/-- The state right after `New`: fresh uncancelled context, zero
outstanding tasks, no error, latch untouched, empty semaphore. -/
def initSt : GroupSt := ⟨false, 0, none, false, 0⟩

/-- `Cancel()`: `if g.cancel != nil { g.cancel() }`; calling the derived
context's cancel function makes the context cancelled (idempotently). -/
def Cancel (cfg : Config) (s : GroupSt) : GroupSt :=
  if cfg.hasCancel then { s with cancelled := true } else s

/-- `add()`: `if g.sem != nil { g.sem <- struct{}{} }; g.wg.Add(1)`.
The channel send is modelled by its effect once it completes (one more
token buffered); its blocking is the enabledness condition `addEnabled`. -/
def add (cfg : Config) (s : GroupSt) : GroupSt :=
  { s with
    semCount := match cfg.sem with
      | none => s.semCount
      | some _ => s.semCount + 1
    wgCount := s.wgCount + 1 }

/-- The channel send in `add` can complete: a buffered channel send
succeeds only while fewer than its capacity tokens are buffered (a nil
channel needs nothing — the send is skipped). -/
def addEnabled (cfg : Config) (s : GroupSt) : Bool :=
  match cfg.sem with
  | none => true
  | some k => decide (s.semCount < k)

/-- `done()`: `if g.sem != nil { <-g.sem }; g.wg.Done()`. -/
def done (cfg : Config) (s : GroupSt) : GroupSt :=
  { s with
    semCount := match cfg.sem with
      | none => s.semCount
      | some _ => s.semCount - 1
    wgCount := s.wgCount - 1 }

/-- The error-handling section of the goroutine body of `Go`, run under
`g.errLock` when `fn()` returned the non-nil error `e`:
in `FailFast` mode, `g.errOnce.Do(func() { g.err = err; g.Cancel() })`;
in `Collect` mode, `g.err = errors.Join(g.err, err)`. -/
def recordErr (cfg : Config) (s : GroupSt) (e : GoErr) : GroupSt :=
  if cfg.failureMode = FailureMode.FailFast then
    if s.errOnce then s
    else Cancel cfg { s with err := some e, errOnce := true }
  else
    { s with err := joinE s.err (some e) }

/-- The whole goroutine body of `Go` once `fn()` has returned `res`
(`none` for success): the error-handling section if `res` is an error,
then the deferred `g.done()`. -/
def finishTask (cfg : Config) (s : GroupSt) (res : Option GoErr) : GroupSt :=
  done cfg (match res with
    | none => s
    | some e => recordErr cfg s e)

/-- `Wait()` returns `g.err` after `g.wg.Wait()` and `g.Cancel()`;
`Cancel` does not touch the slot, so this is the slot's value at that
point. -/
def waitRet (cfg : Config) (s : GroupSt) : Option GoErr :=
  (Cancel cfg s).err

/-- `Len()`: `len(g.sem)` — `0` for the nil channel, otherwise the number
of buffered tokens. -/
def Len (cfg : Config) (s : GroupSt) : Nat :=
  match cfg.sem with
  | none => 0
  | some _ => s.semCount

/-- The observable events of one group: a caller's `Go` completing its
`add` (the spawned body is a separate `finish` event), a task's goroutine
body running to its end with outcome `res`, a caller's `Cancel`, and a
caller's `Wait` unblocking. -/
inductive Event where
  | go : Event
  | finish : Option GoErr → Event
  | cancel : Event
  | wait : Event
deriving DecidableEq, Repr

/-- When an event can occur: `go` needs the semaphore send to complete;
`finish` needs an outstanding task; `cancel` is always possible; `wait`
unblocks only when the `WaitGroup` counter is zero. -/
def enabledB (cfg : Config) (s : GroupSt) : Event → Bool
  | Event.go => addEnabled cfg s
  | Event.finish _ => decide (0 < s.wgCount)
  | Event.cancel => true
  | Event.wait => decide (s.wgCount = 0)

/-- The state transformation of each event. `wait` performs the
unconditional `g.Cancel()` that `Wait` runs after `g.wg.Wait()`. -/
def step (cfg : Config) (s : GroupSt) : Event → GroupSt
  | Event.go => add cfg s
  | Event.finish res => finishTask cfg s res
  | Event.cancel => Cancel cfg s
  | Event.wait => Cancel cfg s

/-- Run a trace of events. -/
def run (cfg : Config) (s : GroupSt) : List Event → GroupSt
  | [] => s
  | ev :: tr => run cfg (step cfg s ev) tr

/-- A trace is valid from `s` when every event is enabled when it fires. -/
def ValidB (cfg : Config) : GroupSt → List Event → Bool
  | _, [] => true
  | s, ev :: tr => enabledB cfg s ev && ValidB cfg (step cfg s ev) tr

/-- The states a group can actually be in: `initSt` plus anything
reachable by enabled events. -/
inductive Reachable (cfg : Config) : GroupSt → Prop where
  | start : Reachable cfg initSt
  | next {s : GroupSt} {ev : Event} : Reachable cfg s →
      enabledB cfg s ev = true → Reachable cfg (step cfg s ev)

/-- `n` calls to `Go` (their `add` part). -/
def submitN (n : Nat) : List Event := List.replicate n Event.go

/-- The goroutine bodies completing with the given outcomes, in arrival
order. -/
def finishes (rs : List (Option GoErr)) : List Event := rs.map Event.finish

/-- Submit one task per outcome, let every task finish (outcomes in
arrival order `rs`), then `Wait` unblocks. -/
def fullTrace (rs : List (Option GoErr)) : List Event :=
  submitN rs.length ++ finishes rs ++ [Event.wait]

/-- One outcome's effect on the `Collect`-mode slot: a nil outcome leaves
it alone (the join runs only under `if err != nil`), an error is joined
in. -/
def collectStep (a : Option GoErr) (r : Option GoErr) : Option GoErr :=
  match r with
  | none => a
  | some e => joinE a (some e)

/-- The value the `Collect` branch leaves in `g.err` after the outcomes
`rs` arrive in order: a fold of `errors.Join` over the non-nil outcomes. -/
def collectAgg (rs : List (Option GoErr)) : Option GoErr :=
  rs.foldl collectStep none

/-- The first non-nil outcome in arrival order — what the `FailFast`
latch captures. -/
def firstErr : List (Option GoErr) → Option GoErr
  | [] => none
  | none :: rs => firstErr rs
  | some e :: _ => some e

/-- Aggregated error after all outcomes `rs`, per failure mode. -/
def aggErr (mode : FailureMode) (rs : List (Option GoErr)) : Option GoErr :=
  match mode with
  | FailureMode.Collect => collectAgg rs
  | FailureMode.FailFast => firstErr rs

/-- The micro-operations the calling thread performs inside `Go` before
it returns: the semaphore send in `add`, the `g.wg.Add(1)` in `add`, and
the `go func()` statement. -/
inductive MicroOp where
  | acquireSem : MicroOp
  | wgAdd : MicroOp
  | spawn : MicroOp
deriving DecidableEq, Repr

/-- The order of micro-operations in `Go`, read off the source:
`add()` first sends on `g.sem` (when non-nil) and then calls
`g.wg.Add(1)`; only then does `Go` launch the goroutine. -/
def goSeq (hasSem : Bool) : List MicroOp :=
  ((if hasSem then [MicroOp.acquireSem] else []) ++ [MicroOp.wgAdd])
    ++ [MicroOp.spawn]

/-! ### Lemmas about `errors.Is` and `errors.Join` -/

theorem goIs_refl (e : GoErr) : goIs e e = true := by
  cases e <;> simp [goIs]

theorem optIs_joinE_self (a : Option GoErr) (t : GoErr) :
    optIs (joinE a (some t)) t = true := by
  cases a <;> simp [joinE, optIs, goIs, goIs_refl]

theorem optIs_joinE_left {a : Option GoErr} {t : GoErr} (e : GoErr)
    (h : optIs a t = true) : optIs (joinE a (some e)) t = true := by
  cases a with
  | none => simp [optIs] at h
  | some x => simp [joinE, optIs, goIs] at h ⊢; simp [h]

theorem collect_foldl_mono {t : GoErr} :
    ∀ (rs : List (Option GoErr)) (acc : Option GoErr),
      optIs acc t = true → optIs (rs.foldl collectStep acc) t = true := by
  intro rs
  induction rs with
  | nil => intro acc h; simpa using h
  | cons r rs ih =>
      intro acc h
      cases r with
      | none => exact ih acc h
      | some e => exact ih (joinE acc (some e)) (optIs_joinE_left e h)

theorem collect_foldl_mem {t : GoErr} :
    ∀ (rs : List (Option GoErr)) (acc : Option GoErr),
      some t ∈ rs → optIs (rs.foldl collectStep acc) t = true := by
  intro rs
  induction rs with
  | nil => intro acc h; simp at h
  | cons r rs ih =>
      intro acc h
      rcases List.mem_cons.mp h with h1 | h2
      · subst h1
        exact collect_foldl_mono rs (joinE acc (some t)) (optIs_joinE_self acc t)
      · cases r with
        | none => exact ih acc h2
        | some e => exact ih (joinE acc (some e)) h2

theorem collect_foldl_none_iff :
    ∀ (rs : List (Option GoErr)) (acc : Option GoErr),
      rs.foldl collectStep acc = none ↔ (acc = none ∧ ∀ r ∈ rs, r = none) := by
  intro rs
  induction rs with
  | nil => intro acc; simp
  | cons r rs ih =>
      intro acc
      cases r with
      | none => simp [collectStep, ih acc]
      | some e =>
          have hjoin : ∀ a : Option GoErr, joinE a (some e) ≠ none := by
            intro a; cases a <;> simp [joinE]
          simp [collectStep, ih (joinE acc (some e)), hjoin]

theorem firstErr_none_iff :
    ∀ rs : List (Option GoErr), firstErr rs = none ↔ ∀ r ∈ rs, r = none := by
  intro rs
  induction rs with
  | nil => simp [firstErr]
  | cons r rs ih => cases r <;> simp [firstErr, ih]

/-! ### Lemmas about traces -/

theorem run_append (cfg : Config) :
    ∀ (t1 t2 : List Event) (s : GroupSt),
      run cfg s (t1 ++ t2) = run cfg (run cfg s t1) t2 := by
  intro t1
  induction t1 with
  | nil => intro t2 s; rfl
  | cons ev t1 ih => intro t2 s; simp [run, ih]

theorem run_submitN_noLimit (mode : FailureMode) (hc : Bool) :
    ∀ (n : Nat) (s : GroupSt),
      run ⟨mode, none, hc⟩ s (submitN n) = { s with wgCount := s.wgCount + n } := by
  intro n
  induction n with
  | zero => intro s; simp [submitN, run]
  | succ n ih =>
      intro s
      simp [submitN, List.replicate_succ, run, step, add] at *
      rw [ih]
      simp [Nat.add_comm, Nat.add_assoc, Nat.add_left_comm]

theorem run_finishes_collect (hc : Bool) :
    ∀ (rs : List (Option GoErr)) (s : GroupSt),
      run ⟨FailureMode.Collect, none, hc⟩ s (finishes rs) =
        { s with err := rs.foldl collectStep s.err,
                 wgCount := s.wgCount - rs.length } := by
  intro rs
  induction rs with
  | nil => intro s; simp [finishes, run]
  | cons r rs ih =>
      intro s
      have hstep : step ⟨FailureMode.Collect, none, hc⟩ s (Event.finish r) =
          { s with err := collectStep s.err r, wgCount := s.wgCount - 1 } := by
        cases r <;> simp [step, finishTask, done, recordErr, collectStep, FailureMode]
      simp [finishes, run] at *
      rw [hstep, ih]
      simp [Nat.sub_sub, Nat.add_comm]

theorem step_latched_ff (semc : Option Nat) (hc : Bool) (s : GroupSt)
    (ev : Event) (h : s.errOnce = true) :
    (step ⟨FailureMode.FailFast, semc, hc⟩ s ev).err = s.err ∧
      (step ⟨FailureMode.FailFast, semc, hc⟩ s ev).errOnce = true := by
  cases ev with
  | go => simp [step, add, h]
  | cancel => simp only [step, Cancel]; split <;> simp [h]
  | wait => simp only [step, Cancel]; split <;> simp [h]
  | finish res =>
      cases res with
      | none => simp [step, finishTask, done, h]
      | some e => simp [step, finishTask, done, recordErr, h]

theorem run_finishes_ff_latched (semc : Option Nat) (hc : Bool) :
    ∀ (rs : List (Option GoErr)) (s : GroupSt), s.errOnce = true →
      (run ⟨FailureMode.FailFast, semc, hc⟩ s (finishes rs)).err = s.err ∧
        (run ⟨FailureMode.FailFast, semc, hc⟩ s (finishes rs)).errOnce = true := by
  intro rs
  induction rs with
  | nil => intro s h; exact ⟨rfl, h⟩
  | cons r rs ih =>
      intro s h
      have hs := step_latched_ff semc hc s (Event.finish r) h
      have := ih (step ⟨FailureMode.FailFast, semc, hc⟩ s (Event.finish r)) hs.2
      simp [finishes, run] at this ⊢
      exact ⟨this.1.trans hs.1, this.2⟩

theorem run_finishes_ff (hc : Bool) :
    ∀ (rs : List (Option GoErr)) (s : GroupSt), s.errOnce = false → s.err = none →
      (run ⟨FailureMode.FailFast, none, hc⟩ s (finishes rs)).err = firstErr rs := by
  intro rs
  induction rs with
  | nil => intro s _ h; simpa [finishes, run, firstErr] using h
  | cons r rs ih =>
      intro s h0 h1
      cases r with
      | none =>
          have hstep : step ⟨FailureMode.FailFast, none, hc⟩ s (Event.finish none) =
              { s with wgCount := s.wgCount - 1 } := by
            simp [step, finishTask, done]
          simp only [finishes, List.map, run, firstErr] at *
          rw [hstep]
          exact ih _ h0 h1
      | some e =>
          have hstep : (step ⟨FailureMode.FailFast, none, hc⟩ s
              (Event.finish (some e))).errOnce = true ∧
              (step ⟨FailureMode.FailFast, none, hc⟩ s
                (Event.finish (some e))).err = some e := by
            by_cases hhc : hc = true <;>
              simp [step, finishTask, recordErr, done, Cancel, h0, hhc]
          have hrest := run_finishes_ff_latched none hc rs _ hstep.1
          simp only [finishes, List.map, run, firstErr] at *
          exact hrest.1.trans hstep.2

theorem Cancel_preserves (cfg : Config) (s : GroupSt) :
    (Cancel cfg s).err = s.err ∧ (Cancel cfg s).wgCount = s.wgCount ∧
      (Cancel cfg s).semCount = s.semCount ∧ (Cancel cfg s).errOnce = s.errOnce := by
  unfold Cancel
  split <;> exact ⟨rfl, rfl, rfl, rfl⟩

theorem Cancel_cancelled_mono (cfg : Config) (s : GroupSt)
    (h : s.cancelled = true) : (Cancel cfg s).cancelled = true := by
  unfold Cancel
  split <;> simp [h]

theorem recordErr_preserves (cfg : Config) (s : GroupSt) (e : GoErr) :
    (recordErr cfg s e).wgCount = s.wgCount ∧
      (recordErr cfg s e).semCount = s.semCount := by
  unfold recordErr Cancel
  split
  · split
    · exact ⟨rfl, rfl⟩
    · split <;> exact ⟨rfl, rfl⟩
  · exact ⟨rfl, rfl⟩

theorem recordErr_cancelled_mono (cfg : Config) (s : GroupSt) (e : GoErr)
    (h : s.cancelled = true) : (recordErr cfg s e).cancelled = true := by
  unfold recordErr Cancel
  split
  · split
    · exact h
    · split <;> simp [h]
  · exact h

theorem step_finish_wgCount (cfg : Config) (s : GroupSt) (r : Option GoErr) :
    (step cfg s (Event.finish r)).wgCount = s.wgCount - 1 := by
  cases r with
  | none => rfl
  | some e =>
      show (done cfg (recordErr cfg s e)).wgCount = s.wgCount - 1
      show (recordErr cfg s e).wgCount - 1 = s.wgCount - 1
      rw [(recordErr_preserves cfg s e).1]

theorem step_finish_semCount (cfg : Config) (s : GroupSt) (r : Option GoErr) :
    (step cfg s (Event.finish r)).semCount =
      match cfg.sem with
      | none => s.semCount
      | some _ => s.semCount - 1 := by
  cases r with
  | none => rfl
  | some e =>
      show (done cfg (recordErr cfg s e)).semCount = _
      simp only [done]
      rw [(recordErr_preserves cfg s e).2]

theorem ValidB_append (cfg : Config) :
    ∀ (t1 t2 : List Event) (s : GroupSt),
      ValidB cfg s (t1 ++ t2) =
        (ValidB cfg s t1 && ValidB cfg (run cfg s t1) t2) := by
  intro t1
  induction t1 with
  | nil => intro t2 s; simp [ValidB, run]
  | cons ev t1 ih => intro t2 s; simp [ValidB, run, ih, Bool.and_assoc]

theorem validB_submitN_noLimit (mode : FailureMode) (hc : Bool) :
    ∀ (n : Nat) (s : GroupSt),
      ValidB ⟨mode, none, hc⟩ s (submitN n) = true := by
  intro n
  induction n with
  | zero => intro s; rfl
  | succ n ih =>
      intro s
      simp [submitN, List.replicate_succ, ValidB, enabledB, addEnabled] at *
      exact ih _

theorem validB_finishes (cfg : Config) :
    ∀ (rs : List (Option GoErr)) (s : GroupSt), rs.length ≤ s.wgCount →
      ValidB cfg s (finishes rs) = true := by
  intro rs
  induction rs with
  | nil => intro s _; rfl
  | cons r rs ih =>
      intro s h
      have hpos : 0 < s.wgCount :=
        Nat.lt_of_lt_of_le (Nat.succ_pos rs.length) h
      have hrest : rs.length ≤ (step cfg s (Event.finish r)).wgCount := by
        rw [step_finish_wgCount]
        simp only [List.length_cons] at h
        omega
      simp [finishes, ValidB, enabledB, hpos] at *
      exact ih _ hrest

theorem run_finishes_wgCount (cfg : Config) :
    ∀ (rs : List (Option GoErr)) (s : GroupSt),
      (run cfg s (finishes rs)).wgCount = s.wgCount - rs.length := by
  intro rs
  induction rs with
  | nil => intro s; rfl
  | cons r rs ih =>
      intro s
      simp only [finishes, List.map, run] at *
      rw [ih, step_finish_wgCount]
      simp only [List.length_cons]
      omega

theorem validB_fullTrace_noLimit (mode : FailureMode) (hc : Bool)
    (rs : List (Option GoErr)) :
    ValidB ⟨mode, none, hc⟩ initSt (fullTrace rs) = true := by
  have hsub : run ⟨mode, none, hc⟩ initSt (submitN rs.length) =
      { initSt with wgCount := initSt.wgCount + rs.length } :=
    run_submitN_noLimit mode hc rs.length initSt
  have hlen : rs.length ≤ (run ⟨mode, none, hc⟩ initSt (submitN rs.length)).wgCount := by
    rw [hsub]; simp [initSt]
  have hzero : (run ⟨mode, none, hc⟩ initSt
      (submitN rs.length ++ finishes rs)).wgCount = 0 := by
    rw [run_append, run_finishes_wgCount, hsub]; simp [initSt]
  rw [fullTrace, ValidB_append, ValidB_append]
  simp only [Bool.and_eq_true]
  exact ⟨⟨validB_submitN_noLimit mode hc rs.length initSt,
    validB_finishes _ rs _ hlen⟩,
    by simp [ValidB, enabledB, hzero]⟩

/-! ### The claims -/

/-- Claim C1: under `Collect` mode, for every set of submitted tasks that
each return an error (arrival order `es`, duplicates allowed), the full
execution is a valid trace (every task finishes — no early cancellation:
the pre-`Wait` state is still uncancelled), and the value `Wait` returns
tests positive under `errors.Is` against each individual error any task
returned. -/
theorem collect_wait_contains_each_error (hc : Bool) (es : List GoErr)
    (t : GoErr) (ht : t ∈ es) :
    ValidB ⟨FailureMode.Collect, none, hc⟩ initSt (fullTrace (es.map some)) = true ∧
    (run ⟨FailureMode.Collect, none, hc⟩ initSt
        (submitN (es.map some).length ++ finishes (es.map some))).cancelled = false ∧
    optIs (waitRet ⟨FailureMode.Collect, none, hc⟩
        (run ⟨FailureMode.Collect, none, hc⟩ initSt
          (submitN (es.map some).length ++ finishes (es.map some)))) t = true := by
  have hpre : run ⟨FailureMode.Collect, none, hc⟩ initSt
      (submitN (es.map some).length ++ finishes (es.map some)) =
      ⟨false, 0, (es.map some).foldl collectStep none, false, 0⟩ := by
    rw [run_append, run_submitN_noLimit, run_finishes_collect]
    simp [initSt]
  refine ⟨validB_fullTrace_noLimit _ _ _, ?_, ?_⟩
  · rw [hpre]
  · rw [hpre]
    show optIs ((Cancel _ _).err) t = true
    rw [(Cancel_preserves _ _).1]
    exact collect_foldl_mem _ _ (List.mem_map_of_mem some ht)

/-- Witness for C1 at a concrete input with a duplicated error. -/
theorem collect_wait_contains_each_error_witness :
    optIs (waitRet ⟨FailureMode.Collect, none, true⟩
        (run ⟨FailureMode.Collect, none, true⟩ initSt
          (submitN ([GoErr.base 0, GoErr.base 1, GoErr.base 0].map some).length ++
            finishes ([GoErr.base 0, GoErr.base 1, GoErr.base 0].map some))))
      (GoErr.base 0) = true :=
  (collect_wait_contains_each_error true [GoErr.base 0, GoErr.base 1, GoErr.base 0]
      (GoErr.base 0) (by simp)).2.2

/-- Claim C2: under `FailFast` mode, once the `sync.Once` latch has fired
no event ever changes the aggregated-error slot again (later errors are
discarded, the latch stays fired), and on any trace `Wait` returns
exactly the first error to arrive. -/
theorem failfast_first_error_latch (hc : Bool) :
    (∀ (semc : Option Nat) (s : GroupSt) (ev : Event), s.errOnce = true →
        (step ⟨FailureMode.FailFast, semc, hc⟩ s ev).err = s.err ∧
          (step ⟨FailureMode.FailFast, semc, hc⟩ s ev).errOnce = true) ∧
    (∀ rs : List (Option GoErr),
        waitRet ⟨FailureMode.FailFast, none, hc⟩
            (run ⟨FailureMode.FailFast, none, hc⟩ initSt
              (submitN rs.length ++ finishes rs)) = firstErr rs) := by
  constructor
  · exact fun semc s ev h => step_latched_ff semc hc s ev h
  · intro rs
    show (Cancel _ _).err = _
    rw [(Cancel_preserves _ _).1, run_append, run_submitN_noLimit]
    exact run_finishes_ff hc rs _ rfl rfl

/-- Witness for C2: a latched state discards a later error, and on a
concrete two-error trace `Wait` returns the first error. -/
theorem failfast_first_error_latch_witness :
    (step ⟨FailureMode.FailFast, none, true⟩ ⟨true, 2, some (GoErr.base 0), true, 0⟩
        (Event.finish (some (GoErr.base 1)))).err = some (GoErr.base 0) ∧
    waitRet ⟨FailureMode.FailFast, none, true⟩
        (run ⟨FailureMode.FailFast, none, true⟩ initSt
          (submitN [some (GoErr.base 0), some (GoErr.base 1)].length ++
            finishes [some (GoErr.base 0), some (GoErr.base 1)])) =
      some (GoErr.base 0) := by
  constructor
  · exact ((failfast_first_error_latch true).1 none
      ⟨true, 2, some (GoErr.base 0), true, 0⟩
      (Event.finish (some (GoErr.base 1))) rfl).1
  · exact (failfast_first_error_latch true).2 [some (GoErr.base 0), some (GoErr.base 1)]

/-- Claim C3: for a group built by `New` (non-nil cancel function), an
event makes the derived context cancelled exactly when it was already
cancelled, or the event is an explicit `Cancel`, `Wait` unblocking (even
with no error recorded), or a task error arriving under `FailFast` with
the latch still unfired — in particular a task error under `Collect`
never triggers cancellation. -/
theorem cancellation_exactly_three_triggers (mode : FailureMode)
    (semc : Option Nat) (s : GroupSt) (ev : Event) :
    (step ⟨mode, semc, true⟩ s ev).cancelled = true ↔
      (s.cancelled = true ∨ ev = Event.cancel ∨ ev = Event.wait ∨
        ∃ e, ev = Event.finish (some e) ∧ mode = FailureMode.FailFast ∧
          s.errOnce = false) := by
  cases ev with
  | go => simp [step, add]
  | cancel => simp [step, Cancel]
  | wait => simp [step, Cancel]
  | finish res =>
      cases res with
      | none => simp [step, finishTask, done]
      | some e =>
          cases mode with
          | Collect => simp [step, finishTask, done, recordErr]
          | FailFast =>
              by_cases h : s.errOnce = true
              · simp [step, finishTask, done, recordErr, h]
              · have h' : s.errOnce = false := by simpa using h
                simp [step, finishTask, done, recordErr, Cancel, h']

/-- Claim C4: with `WithLimit k`, in every reachable state the number of
tasks holding admission capacity never exceeds `k` (each `add` acquires
one unit when enabled, each `done` releases it); without a limit the
acquire and release in `add`/`done` are no-ops and submission is never
blocked. -/
theorem limit_never_exceeded (mode : FailureMode) (hc : Bool) :
    (∀ (k : Nat) (s : GroupSt), Reachable ⟨mode, some k, hc⟩ s → s.semCount ≤ k) ∧
    (∀ s : GroupSt,
        add ⟨mode, none, hc⟩ s = { s with wgCount := s.wgCount + 1 } ∧
        done ⟨mode, none, hc⟩ s = { s with wgCount := s.wgCount - 1 } ∧
        enabledB ⟨mode, none, hc⟩ s Event.go = true) := by
  constructor
  · intro k s h
    induction h with
    | start => exact Nat.zero_le k
    | next hr hen ih =>
        rename_i s' ev
        cases ev with
        | go =>
            have hlt : s'.semCount < k := by
              simpa [enabledB, addEnabled] using hen
            simpa [step, add] using hlt
        | finish r =>
            rw [step_finish_semCount]
            exact Nat.le_trans (Nat.sub_le _ _) ih
        | cancel =>
            rw [show (step ⟨mode, some k, hc⟩ s' Event.cancel).semCount = s'.semCount from
              (Cancel_preserves _ _).2.2.1]
            exact ih
        | wait =>
            rw [show (step ⟨mode, some k, hc⟩ s' Event.wait).semCount = s'.semCount from
              (Cancel_preserves _ _).2.2.1]
            exact ih
  · intro s; exact ⟨rfl, rfl, rfl⟩

/-- Witness for C4: with limit 1, the state reached by one enabled `Go`
holds at most one unit. -/
theorem limit_never_exceeded_witness :
    (step ⟨FailureMode.Collect, some 1, true⟩ initSt Event.go).semCount ≤ 1 :=
  (limit_never_exceeded FailureMode.Collect true).1 1 _
    (Reachable.next Reachable.start rfl)

/-- Claim C5: after every submitted task finished the outstanding-task
counter is zero (so `Wait` unblocks exactly then); the value `Wait`
returns is the mode's aggregate of the outcomes, and it is nil if and
only if no task failed. -/
theorem wait_nil_iff_no_failure (mode : FailureMode) (hc : Bool)
    (rs : List (Option GoErr)) :
    (run ⟨mode, none, hc⟩ initSt (submitN rs.length ++ finishes rs)).wgCount = 0 ∧
    waitRet ⟨mode, none, hc⟩
        (run ⟨mode, none, hc⟩ initSt (submitN rs.length ++ finishes rs)) =
      aggErr mode rs ∧
    (aggErr mode rs = none ↔ ∀ r ∈ rs, r = none) := by
  refine ⟨?_, ?_, ?_⟩
  · rw [run_append, run_finishes_wgCount, run_submitN_noLimit]
    simp [initSt]
  · show (Cancel _ _).err = _
    rw [(Cancel_preserves _ _).1, run_append, run_submitN_noLimit]
    cases mode with
    | Collect =>
        rw [run_finishes_collect]
        simp [aggErr, collectAgg, initSt]
    | FailFast => exact run_finishes_ff hc rs _ rfl rfl
  · cases mode with
    | Collect =>
        simp only [aggErr, collectAgg]
        simpa using collect_foldl_none_iff rs none
    | FailFast => exact firstErr_none_iff rs

/-- Claim C6: `Cancel` is idempotent, its only observable effect is on
the cancellation flag (error slot, counters and latch untouched), and
once the derived context is cancelled no event ever un-cancels it. -/
theorem cancel_idempotent (cfg : Config) (s : GroupSt) :
    Cancel cfg (Cancel cfg s) = Cancel cfg s ∧
    (Cancel cfg s).err = s.err ∧ (Cancel cfg s).wgCount = s.wgCount ∧
      (Cancel cfg s).semCount = s.semCount ∧ (Cancel cfg s).errOnce = s.errOnce ∧
    (∀ ev : Event, s.cancelled = true → (step cfg s ev).cancelled = true) := by
  have hpres := Cancel_preserves cfg s
  refine ⟨?_, hpres.1, hpres.2.1, hpres.2.2.1, hpres.2.2.2, ?_⟩
  · by_cases h : cfg.hasCancel = true <;> simp [Cancel, h]
  · intro ev h
    cases ev with
    | go => simpa [step, add] using h
    | cancel => exact Cancel_cancelled_mono cfg s h
    | wait => exact Cancel_cancelled_mono cfg s h
    | finish r =>
        cases r with
        | none => simpa [step, finishTask, done] using h
        | some e =>
            show (done cfg (recordErr cfg s e)).cancelled = true
            show (recordErr cfg s e).cancelled = true
            exact recordErr_cancelled_mono cfg s e h

/-- Witness for C6: a second `Cancel` on an already-cancelled state, and
an event after cancellation leaves the flag set. -/
theorem cancel_idempotent_witness :
    Cancel ⟨FailureMode.Collect, none, true⟩
        (Cancel ⟨FailureMode.Collect, none, true⟩ initSt) =
      Cancel ⟨FailureMode.Collect, none, true⟩ initSt ∧
    (step ⟨FailureMode.Collect, none, true⟩ ⟨true, 3, none, false, 0⟩
        Event.go).cancelled = true :=
  ⟨(cancel_idempotent ⟨FailureMode.Collect, none, true⟩ initSt).1,
   (cancel_idempotent ⟨FailureMode.Collect, none, true⟩
      ⟨true, 3, none, false, 0⟩).2.2.2.2.2 Event.go rfl⟩

/-- Counterexample to C7 as stated: with a limit configured, the calling
thread of `Go` does not increment the outstanding-task counter before
blocking on the admission gate — the micro-operation order read off the
source is not counter-first. -/
theorem go_counter_first_counterexample :
    ¬ (goSeq true = [MicroOp.wgAdd, MicroOp.acquireSem, MicroOp.spawn]) := by
  decide

/-- Claim C7 (amended): `Go` first completes the admission-gate acquire
(blocking the calling thread while the gate is full; skipped when no
limit is configured), then increments the outstanding-task counter, then
launches the task on its own goroutine; no per-task handle is returned. -/
theorem go_acquires_then_increments_then_spawns :
    goSeq true = [MicroOp.acquireSem, MicroOp.wgAdd, MicroOp.spawn] ∧
    goSeq false = [MicroOp.wgAdd, MicroOp.spawn] := by
  decide

/-- Claim C8: on a group with no submitted task, `Wait` is immediately
unblocked (its barrier condition holds in the initial state) and returns
nil. -/
theorem wait_zero_tasks_immediate (mode : FailureMode) (semc : Option Nat)
    (hc : Bool) :
    enabledB ⟨mode, semc, hc⟩ initSt Event.wait = true ∧
    waitRet ⟨mode, semc, hc⟩ initSt = none := by
  refine ⟨rfl, ?_⟩
  show (Cancel _ _).err = none
  rw [(Cancel_preserves _ _).1]
  rfl

/-- Claim C9: `Len` returns the number of tasks currently holding
admission capacity (it tracks acquire/release one-for-one when a limit
is configured), and with no limit configured it returns `0` in every
state, however many tasks are outstanding. -/
theorem len_counts_capacity_holders (mode : FailureMode) (hc : Bool) :
    (∀ (k : Nat) (s : GroupSt),
        Len ⟨mode, some k, hc⟩ s = s.semCount ∧
        Len ⟨mode, some k, hc⟩ (add ⟨mode, some k, hc⟩ s) =
          Len ⟨mode, some k, hc⟩ s + 1 ∧
        Len ⟨mode, some k, hc⟩ (done ⟨mode, some k, hc⟩ s) =
          Len ⟨mode, some k, hc⟩ s - 1) ∧
    (∀ s : GroupSt, Len ⟨mode, none, hc⟩ s = 0 ∧
        Len ⟨mode, none, hc⟩ (add ⟨mode, none, hc⟩ s) = 0) :=
  ⟨fun _ _ => ⟨rfl, rfl, rfl⟩, fun _ => ⟨rfl, rfl⟩⟩

/-- Claim C10: with `WithLimit 0` the admission gate has zero capacity:
the semaphore send in `Go` is never enabled in any state, so from the
initial state no task is ever added — the counter and the gate stay at
zero in every reachable state. -/
theorem with_limit_zero_blocks (mode : FailureMode) (hc : Bool) :
    (∀ s : GroupSt, enabledB ⟨mode, some 0, hc⟩ s Event.go = false) ∧
    (∀ s : GroupSt, Reachable ⟨mode, some 0, hc⟩ s →
        s.wgCount = 0 ∧ s.semCount = 0) := by
  have hgo : ∀ s : GroupSt, enabledB ⟨mode, some 0, hc⟩ s Event.go = false := by
    intro s; simp [enabledB, addEnabled]
  refine ⟨hgo, ?_⟩
  intro s h
  induction h with
  | start => exact ⟨rfl, rfl⟩
  | next hr hen ih =>
      rename_i s' ev
      cases ev with
      | go => rw [hgo s'] at hen; exact absurd hen (by simp)
      | finish r =>
          have : (0 : Nat) < s'.wgCount := by simpa [enabledB] using hen
          rw [ih.1] at this
          exact absurd this (by simp)
      | cancel =>
          exact ⟨((Cancel_preserves _ _).2.1).trans ih.1,
            ((Cancel_preserves _ _).2.2.1).trans ih.2⟩
      | wait =>
          exact ⟨((Cancel_preserves _ _).2.1).trans ih.1,
            ((Cancel_preserves _ _).2.2.1).trans ih.2⟩

/-- Witness for C10: the initial state itself — reachable, no task ever
started, and `Go` is not enabled there. -/
theorem with_limit_zero_blocks_witness :
    enabledB ⟨FailureMode.Collect, some 0, true⟩ initSt Event.go = false ∧
    initSt.wgCount = 0 :=
  ⟨(with_limit_zero_blocks FailureMode.Collect true).1 initSt,
   ((with_limit_zero_blocks FailureMode.Collect true).2 initSt Reachable.start).1⟩

end Workgroup
